import Mathlib

/-!
Verification of the bashlint tokenizer module (`bashlint/data_tools.py`):
a shallow embedding of the AST node model, the `ast2tokens` linearizer, the
`ast2list` dfs linearizer, `fill_default_value` and the parenthesized-sequence
parser, together with proofs and refutations of documented properties.

Python exceptions (assertion failures, attribute errors on null back-references,
unpacking errors, list-index errors) are modelled by `Option`: a `none` result
means the corresponding Python call raises and returns nothing.
-/

/- ### Python string primitives, modelled over character lists so that every
operation is kernel-computable.  Python compares strings by code points. -/

/-- Python string comparison `a <= b`: lexicographic on code points. -/
def pyLeChars : List Char → List Char → Bool
  | [], _ => true
  | _ :: _, [] => false
  | a :: as, b :: bs =>
    if a.toNat < b.toNat then true
    else if b.toNat < a.toNat then false
    else pyLeChars as bs

/-- Python `a <= b` on strings. -/
def pyStrLe (a b : String) : Bool := pyLeChars a.data b.data

/-- Python `s.startswith(p)`. -/
def pyStartsWith (s p : String) : Bool := p.data.isPrefixOf s.data

/-- Python `s.endswith(p)`. -/
def pyEndsWith (s p : String) : Bool := p.data.isSuffixOf s.data

/-- Contiguous-substring search over character lists. -/
def subChars (needle : List Char) : List Char → Bool
  | [] => needle.isEmpty
  | c :: rest => needle.isPrefixOf (c :: rest) || subChars needle rest

/-- Python `pat in s` (substring containment). -/
def pyContains (s pat : String) : Bool := subChars pat.data s.data

/-- Splitter for Python `s.split('::')`: leftmost non-overlapping occurrences
of the two-character separator; `cur` is the reversed current chunk. -/
def splitDCAux (cur : List Char) : List Char → List (List Char)
  | ':' :: ':' :: rest => cur.reverse :: splitDCAux [] rest
  | c :: rest => splitDCAux (c :: cur) rest
  | [] => [cur.reverse]

/-- Python `s.split('::')`. -/
def pySplitDC (s : String) : List String := (splitDCAux [] s.data).map String.mk

/-- ASCII lower-casing of one character, as Python `str.lower` acts on the
ASCII argument-type names that reach it. -/
def pyCharLower (c : Char) : Char :=
  if 'A' ≤ c ∧ c ≤ 'Z' then Char.ofNat (c.toNat + 32) else c

/-- Python `s.lower()` restricted to ASCII content. -/
def pyLower (s : String) : String := ⟨s.data.map pyCharLower⟩

/-- Python `'{:02d}'.format(n)` for a natural index: zero-pad to width two. -/
def pyFormat02d (n : Nat) : String :=
  if n < 10 then "0" ++ Nat.repr n else Nat.repr n

/-- Python `str.split()` whitespace class (space, tab, newline, cr, vt, ff). -/
def pyIsSpaceChar (c : Char) : Bool :=
  c == ' ' || c == '\t' || c == '\n' || c == '\r' || c == '\x0b' || c == '\x0c'

/-- Worker for Python `line.strip().split()`: whitespace tokenization that
discards empty chunks (which also absorbs the `strip`). -/
def pyWordsAux (cur : List Char) : List Char → List String
  | [] => if cur.isEmpty then [] else [⟨cur.reverse⟩]
  | c :: rest =>
    if pyIsSpaceChar c then
      if cur.isEmpty then pyWordsAux [] rest
      else ⟨cur.reverse⟩ :: pyWordsAux [] rest
    else pyWordsAux (c :: cur) rest

/-- Python `line.strip().split()`. -/
def pyWords (s : String) : List String := pyWordsAux [] s.data

/- ### The AST node model. -/

/-- Modelled from the spec: the node-kind taxonomy of the AST data model
(`bashlint/nast.py` is not under `src/`): root, pipeline, utility, option,
argument, logic operators, bracket, substitutions, non-terminal placeholder
and generic terminal. -/
inductive NodeKind where
  | root | pipeline | utility | option | argument
  | binarylogicop | unarylogicop | bracket
  | commandsubstitution | processsubstitution | nt | t
  deriving DecidableEq, Repr

/-- Modelled from the spec: the scalar attributes of an AST node.  The
non-owning back-references are stored as data: `parent` records the kind and
value of the parent node (`none` for a detached node or the root), and
`utilityValue` records the value of the nearest enclosing utility node
(`none` when there is none); `simplePre` models the externally injected
`simple_prefix` annotation; `rightAssoc` models the unary-logic-op
associativity; `toIndex`/`index` model the `to_index()` flag and ordinal of
index-annotated arguments; `openVocab` models the open-vocabulary flag of
the argument-type taxonomy. -/
structure NodeInfo where
  kind : NodeKind
  value : String
  argType : String := ""
  openVocab : Bool := false
  parent : Option (NodeKind × String) := none
  utilityValue : Option String := none
  simplePre : String := ""
  rightAssoc : Bool := false
  toIndex : Bool := false
  index : Nat := 0
  deriving DecidableEq, Repr

/-- Modelled from the spec: an AST node is its attributes plus the ordered
list of children. -/
inductive Node where
  | mk : NodeInfo → List Node → Node
  deriving Repr

/-- The attribute record of a node. -/
def Node.info : Node → NodeInfo
  | .mk i _ => i

/-- The ordered children of a node. -/
def Node.children : Node → List Node
  | .mk _ cs => cs

/-- The kind tag of a node. -/
def Node.kind (n : Node) : NodeKind := n.info.kind

/-- The literal value of a node. -/
def Node.value (n : Node) : String := n.info.value

/-- The argument type of a node. -/
def Node.argType (n : Node) : String := n.info.argType

/-- Modelled from the spec: `node.get_num_of_children()`. -/
def Node.get_num_of_children (n : Node) : Nat := n.children.length

/-- Modelled from the spec: `node.is_root()`. -/
def Node.is_root (n : Node) : Bool := n.kind == .root

/-- Modelled from the spec: `node.is_utility()`. -/
def Node.is_utility (n : Node) : Bool := n.kind == .utility

/-- Modelled from the spec: `node.is_option()`. -/
def Node.is_option (n : Node) : Bool := n.kind == .option

/-- Modelled from the spec: `node.is_argument()`. -/
def Node.is_argument (n : Node) : Bool := n.kind == .argument

/-- Modelled from the spec: `node.is_open_vocab()`, the open-vocabulary flag
distinguishing free-text arguments from closed-vocabulary ones. -/
def Node.is_open_vocab (n : Node) : Bool := n.info.openVocab

/-- Modelled from the spec: `node.to_index()`, whether the node is an
index-annotated (position-sensitive) argument. -/
def Node.to_index (n : Node) : Bool := n.info.toIndex

/- ### Static registry constants. -/

/-- Modelled from the spec: `nlp_tools.constants._QUANTITIES` (module not
under `src/`): the quantity-based argument types (the NER module lists the
quantity categories as Number, Size and Timespan) whose leading sign is
preserved under type abstraction. -/
def QUANTITIES : List String := ["Number", "Size", "Timespan"]

/-- Modelled from the spec: `nlp_tools.constants._ENTITIES` (module not under
`src/`): the placeholder/entity markers an unfilled argument carries as its
value; an unfilled slot carries its argument-type name as its value, as
witnessed by the `node.value == 'Regex'` test in `fill_default_value`. -/
def ENTITIES : List String :=
  ["Path", "Regex", "Number", "Permission", "Size", "Timespan", "DateTime",
   "File", "Directory", "Username", "Groupname", "Other"]

/-- Modelled from the spec: `bash.common_arguments` (module not under `src/`):
the configured allow-list of frequent arguments kept literal in template
mode; its exact contents are configuration data. -/
def common_arguments : List String := [".", "..", "/", "*"]

/-- Modelled from the spec: `nast._H_NO_EXPAND`, the structural sentinel
appended after the subtree of a node that has children. -/
def H_NO_EXPAND : String := "<H_NO_EXPAND>"

/-- Modelled from the spec: `nast._V_NO_EXPAND`, the structural sentinel
appended after a leaf node. -/
def V_NO_EXPAND : String := "<V_NO_EXPAND>"

/- ### Python's stable sort (`sorted(xs, key=...)` with a string key). -/

/-- Stable insertion of a node into a key-sorted list: the new element goes
before the first element whose key is not below it, so elements with equal
keys keep their original relative order, as Python's stable sort does. -/
def insertKeyed (key : Node → String) (x : Node) : List Node → List Node
  | [] => [x]
  | y :: ys =>
    if pyStrLe (key x) (key y) then x :: y :: ys else y :: insertKeyed key x ys

/-- Stable sort by a string key; agrees with Python `sorted(xs, key=...)`
because stable sorts by the same key coincide. -/
def sortKeyed (key : Node → String) : List Node → List Node
  | [] => []
  | x :: xs => insertKeyed key x (sortKeyed key xs)

/- ### Size measures used for termination and for the claims about list
lengths. -/

mutual
/-- Termination weight of a node (counts list constructors too). -/
def nodeWeight : Node → Nat
  | .mk _ cs => 1 + listWeight cs

/-- Termination weight of a list of nodes. -/
def listWeight : List Node → Nat
  | [] => 0
  | c :: cs => 1 + nodeWeight c + listWeight cs
end

mutual
/-- Number of nodes of a tree. -/
def numNodes : Node → Nat
  | .mk _ cs => 1 + numNodesList cs

/-- Total number of nodes of a list of trees. -/
def numNodesList : List Node → Nat
  | [] => 0
  | c :: cs => numNodes c + numNodesList cs
end

/-- Stable insertion preserves the termination weight (stated as a definition
because the recursive linearizers below use it in their termination proofs). -/
def wt_insertKeyed : ∀ (k : Node → String) (x : Node) (l : List Node),
    listWeight (insertKeyed k x l) = 1 + nodeWeight x + listWeight l := by
  intro k x l
  induction l with
  | nil => simp [insertKeyed, listWeight]
  | cons y ys ih =>
    simp only [insertKeyed]
    by_cases h : pyStrLe (k x) (k y)
    · simp [h, listWeight]
    · simp [h, listWeight, ih]; omega

/-- Stable sorting preserves the termination weight. -/
def wt_sortKeyed : ∀ (k : Node → String) (l : List Node),
    listWeight (sortKeyed k l) = listWeight l := by
  intro k l
  induction l with
  | nil => simp [sortKeyed]
  | cons x xs ih => simp [sortKeyed, wt_insertKeyed, ih, listWeight]

/-- Weight of a conditionally sorted child list. -/
def wt_ite_sort : ∀ (b : Bool) (k : Node → String) (cs : List Node),
    listWeight (if b = true then sortKeyed k cs else cs) = listWeight cs := by
  intro b k cs
  cases b <;> simp [wt_sortKeyed]

/- ### The linearizer `ast2tokens`. -/

/-- The linearization policy flags of `ast2tokens`, with the source's default
values; the field `with_pre` embeds the source's `with_prefix` parameter. -/
structure Flags where
  loose_constraints : Bool := false
  ignore_flag_order : Bool := false
  arg_type_only : Bool := false
  keep_common_args : Bool := false
  with_arg_type : Bool := false
  with_parent : Bool := false
  index_arg : Bool := false
  with_pre : Bool := false

mutual
/-- Embeds the inner `to_tokens_fun` of `ast2tokens`.  A `none` result models
a raised exception: a failed strict-mode arity assertion, a `ValueError` from
unpacking a `split('::')` with other than two parts, an `AttributeError`
from a null `utility` back-reference, or an `IndexError` on `children[-1]`.
The source's local alias `wp` is assigned `with_parent` and then immediately
reassigned `with_prefix`, so every later use of `wp` reads the
`with_prefix` flag; the embedding mirrors that by testing `with_pre` in both
places `wp` is tested. -/
def toTokens (F : Flags) : Node → Option (List String)
  | .mk i cs =>
    match i.kind with
    | .root =>
      if !(F.loose_constraints || cs.length == 1) then none
      else if F.loose_constraints then toTokensList F cs
      else
        match cs with
        | c :: _ => toTokens F c
        | [] => none
    | .pipeline =>
      if !(F.loose_constraints || cs.length > 1) then none
      else if F.loose_constraints && cs.length < 1 then some ["|"]
      else if F.loose_constraints && cs.length == 1 then
        match cs with
        | c :: _ => toTokens F c
        | [] => none
      else toTokensSep F "|" cs
    | .commandsubstitution =>
      if !(F.loose_constraints || cs.length == 1) then none
      else if F.loose_constraints && cs.length < 1 then some ["$(", ")"]
      else
        match cs with
        | c :: _ =>
          match toTokens F c with
          | none => none
          | some ts => some ("$(" :: ts ++ [")"])
        | [] => none
    | .processsubstitution =>
      if !(F.loose_constraints || cs.length == 1) then none
      else if F.loose_constraints && cs.length < 1 then some [i.value ++ "(", ")"]
      else
        match cs with
        | c :: _ =>
          match toTokens F c with
          | none => none
          | some ts => some ((i.value ++ "(") :: ts ++ [")"])
        | [] => none
    | .utility =>
      match toTokensList F
          (if F.ignore_flag_order = true then sortKeyed Node.value cs else cs) with
      | none => none
      | some ts => some (i.value :: ts)
    | .option =>
      if !(F.loose_constraints || i.parent.isSome) then none
      else
        match
          (if pyContains i.value "::" &&
              (pyStartsWith i.value "-exec" || pyStartsWith i.value "-ok") then
            match pySplitDC i.value with
            | [v, op] => some (v, some op)
            | _ => none
          else some (i.value, (none : Option String))) with
        | none => none
        | some (v, op?) =>
          match
            (if F.with_pre then
              if i.parent.isSome then
                match i.utilityValue with
                | some uv => some (uv ++ "@@" ++ v)
                | none => none
              else some ("@@" ++ v)
            else some v) with
          | none => none
          | some tok1 =>
            let token := if F.with_pre then i.simplePre ++ tok1 else tok1
            match toTokensList F cs with
            | none => none
            | some ts =>
              some (token :: ts ++
                (match op? with
                 | some op => [if op == ";" then "\\;" else op]
                 | none => []))
    | .binarylogicop =>
      if !(F.loose_constraints || cs.length == 0) then none
      else if F.loose_constraints && cs.length > 0 then toTokensSep F i.value cs
      else some [i.value]
    | .unarylogicop =>
      if !(F.loose_constraints || cs.length == 0) then none
      else if F.loose_constraints && cs.length > 0 then
        match cs with
        | c :: _ =>
          if i.rightAssoc then
            match toTokens F c with
            | none => none
            | some ts => some (i.value :: ts)
          else
            match toTokens F c with
            | none => none
            | some ts => some (ts ++ [i.value])
        | [] => none
      else some [i.value]
    | .bracket =>
      if !(F.loose_constraints || cs.length ≥ 1) then none
      else if F.loose_constraints && cs.length < 2 then toTokensList F cs
      else
        match cs with
        | [] => none
        | c1 :: rest =>
          match toTokensList F (c1 :: rest) with
          | none => none
          | some ts => some ("\\(" :: ts ++ ["\\)"])
    | .nt =>
      if !(F.loose_constraints || cs.length > 0) then none
      else
        match toTokensList F cs with
        | none => none
        | some ts => some ("(" :: ts ++ [")"])
    | .argument | .t =>
      if !(F.loose_constraints || cs.length == 0) then none
      else
        let token :=
          if F.arg_type_only && i.openVocab then
            if F.keep_common_args && common_arguments.contains i.value then i.value
            else
              if QUANTITIES.contains i.argType then
                if pyStartsWith i.value "+" then "+" ++ i.argType
                else if pyStartsWith i.value "-" then "-" ++ i.argType
                else i.argType
              else i.argType
          else i.value
        let token := if F.with_pre && i.openVocab then i.simplePre ++ token else token
        let token := if F.with_arg_type then token ++ "_" ++ i.argType else token
        let token :=
          if F.index_arg && i.toIndex then token ++ "-" ++ pyFormat02d i.index else token
        if F.loose_constraints then
          match toTokensList F cs with
          | none => none
          | some ts => some (token :: ts)
        else some [token]
  termination_by n => nodeWeight n
  decreasing_by all_goals (try simp [nodeWeight, listWeight, wt_ite_sort]; try omega)

/-- Concatenated linearization of a child list (`for child in children:
tokens += to_tokens_fun(child)`). -/
def toTokensList (F : Flags) : List Node → Option (List String)
  | [] => some []
  | c :: cs =>
    match toTokens F c with
    | none => none
    | some ts =>
      match toTokensList F cs with
      | none => none
      | some rest => some (ts ++ rest)
  termination_by cs => listWeight cs
  decreasing_by all_goals (try simp [nodeWeight, listWeight, wt_ite_sort]; try omega)

/-- Child linearization joined by a separator token (the pipeline and loose
binary-logic-op loops: every child but the last is followed by the
separator); the empty case models the `IndexError` of `children[-1]`. -/
def toTokensSep (F : Flags) (sep : String) : List Node → Option (List String)
  | [] => none
  | [c] => toTokens F c
  | c :: c2 :: rest =>
    match toTokens F c with
    | none => none
    | some ts =>
      match toTokensSep F sep (c2 :: rest) with
      | none => none
      | some rest2 => some (ts ++ sep :: rest2)
  termination_by cs => listWeight cs
  decreasing_by all_goals (try simp [nodeWeight, listWeight, wt_ite_sort]; try omega)
end

/-- Embeds `ast2tokens`: dispatches to the recursive worker.  (The source's
`if not node` guard concerns only a null argument, which the Lean type
excludes.) -/
def ast2tokens (node : Node) (F : Flags) : Option (List String) :=
  toTokens F node

/- ### The dfs linearizer `ast2list`. -/

mutual
/-- Embeds `ast2list` in `dfs` order: append the node's display token
(argument-type abstraction for open-vocabulary arguments, utility-qualified
option tokens under `with_parent` — null-guarded here, unlike in
`ast2tokens` — and the `simple_prefix` under the prefix flag), then the
linearized children (stably sorted for a utility under `ignore_flag_order`)
followed by the has-children sentinel, or the no-children sentinel after a
leaf; any other order returns the supplied list unchanged. -/
def ast2list (n : Node) (order : String) (lst : List String)
    (ignore_flag_order arg_type_only keep_common_args with_parent wpre : Bool) :
    List String :=
  if order == "dfs" then
    match n with
    | .mk i cs =>
      let token :=
        if i.kind == .argument && i.openVocab && arg_type_only then i.argType
        else if i.kind == .option && with_parent then
          match i.utilityValue with
          | some uv => uv ++ "@@" ++ i.value
          | none => i.value
        else i.value
      let token :=
        if wpre && (i.kind == .option || (i.kind == .argument && i.openVocab)) then
          i.simplePre ++ token
        else token
      let lst2 := lst ++ [token]
      if cs.length > 0 then
        ast2listFold
          (if (i.kind == .utility && ignore_flag_order) = true then
            sortKeyed Node.value cs
          else cs)
          order lst2 ignore_flag_order arg_type_only keep_common_args
          with_parent wpre ++ [H_NO_EXPAND]
      else lst2 ++ [V_NO_EXPAND]
  else lst
  termination_by nodeWeight n
  decreasing_by all_goals (try simp [nodeWeight, listWeight, wt_ite_sort]; try split; all_goals (try simp [wt_sortKeyed]); all_goals omega)

/-- The child loop of `ast2list`: thread the accumulated list through the
children left to right. -/
def ast2listFold (cs : List Node) (order : String) (lst : List String)
    (ifo ato kca wpar wpre : Bool) : List String :=
  match cs with
  | [] => lst
  | c :: rest =>
    ast2listFold rest order (ast2list c order lst ifo ato kca wpar wpre)
      ifo ato kca wpar wpre
  termination_by listWeight cs
  decreasing_by all_goals (try simp [nodeWeight, listWeight, wt_ite_sort]; try omega)
end

/- ### Default-value filling. -/

/-- The quoted default regex that `fill_default_value` assigns under `grep`
(character code 39 is the single-quote). -/
def grepDefaultRegex : String := ⟨[Char.ofNat 39, '.', '*', Char.ofNat 39]⟩

/-- The final `else` arm of `fill_default_value`: an open-vocabulary argument
gets the bracketed lower-cased type name, any other node is left unchanged. -/
def fillOtherValue (i : NodeInfo) : NodeInfo :=
  if i.openVocab then { i with value := "[" ++ pyLower i.argType ++ "]" } else i

/-- The per-node value substitution of `fill_default_value` on an
entity-valued argument node, as a transform of the node's attributes (the
children are untouched): the `if/elif/else` chain over the argument type and
the parent/utility back-references.  A `none` result models the
`AttributeError` raised when the chain dereferences a null `parent` (for the
`Path` and `Regex` types) or a null `utility` back-reference (for
`Number`). -/
def fillArgValue (i : NodeInfo) : Option NodeInfo :=
  if i.argType == "Path" then
    match i.parent with
    | none => none
    | some (pk, pv) =>
      if pk == .utility && pv == "find" then some { i with value := "." }
      else some (fillOtherValue i)
  else if i.argType == "Regex" then
    match i.parent with
    | none => none
    | some (pk, pv) =>
      if pk == .utility && pv == "grep" then some { i with value := grepDefaultRegex }
      else if pk == .option && pv == "-name" && i.value == "Regex" then
        some { i with value := "\"*\"" }
      else some i
  else if i.argType == "Number" then
    match i.utilityValue with
    | none => none
    | some uv =>
      if uv == "head" || uv == "tail" then some { i with value := "10" }
      else some (fillOtherValue i)
  else some (fillOtherValue i)

mutual
/-- Embeds `fill_default_value`.  An argument node whose value is an entity
placeholder has its value replaced in place by the context-appropriate
default of `fillArgValue`; non-argument nodes recurse into their children;
argument nodes never recurse. -/
def fill_default_value : Node → Option Node
  | .mk i cs =>
    if i.kind == .argument then
      if ENTITIES.contains i.value then
        match fillArgValue i with
        | none => none
        | some i2 => some (.mk i2 cs)
      else some (.mk i cs)
    else
      match fillList cs with
      | none => none
      | some cs2 => some (.mk i cs2)

/-- The child loop of `fill_default_value`. -/
def fillList : List Node → Option (List Node)
  | [] => some []
  | c :: cs =>
    match fill_default_value c with
    | none => none
    | some c2 =>
      match fillList cs with
      | none => none
      | some cs2 => some (c2 :: cs2)
end

mutual
/-- Frame relation for `fill_default_value`: the second tree agrees with the
first on every node attribute except possibly `value`, values may differ
only at entity-valued argument nodes, and the children correspond pointwise
(same shape). -/
def frameAgree : Node → Node → Bool
  | .mk i cs, .mk i2 cs2 =>
    i2.kind == i.kind && i2.argType == i.argType && i2.openVocab == i.openVocab &&
    i2.parent == i.parent && i2.utilityValue == i.utilityValue &&
    i2.simplePre == i.simplePre && i2.rightAssoc == i.rightAssoc &&
    i2.toIndex == i.toIndex && i2.index == i.index &&
    (if i.kind == .argument && ENTITIES.contains i.value then true
     else i2.value == i.value) &&
    frameAgreeList cs cs2

/-- Pointwise frame relation on child lists. -/
def frameAgreeList : List Node → List Node → Bool
  | [], [] => true
  | c :: cs, c2 :: cs2 => frameAgree c c2 && frameAgreeList cs cs2
  | _, _ => false
end

mutual
/-- Back-reference health for `fill_default_value`: every entity-valued
argument node carries the back-references the fill pass dereferences — a
parent for the `Path` and `Regex` types and an enclosing utility for
`Number`. -/
def backrefOK : Node → Bool
  | .mk i cs =>
    (if i.kind == .argument && ENTITIES.contains i.value then
      (if i.argType == "Path" || i.argType == "Regex" then i.parent.isSome else true) &&
      (if i.argType == "Number" then i.utilityValue.isSome else true)
    else true) && backrefOKList cs

/-- Back-reference health of every tree in a list. -/
def backrefOKList : List Node → Bool
  | [] => true
  | c :: cs => backrefOK c && backrefOKList cs
end

mutual
/-- Whether a tree contains a node violating one of the strict-mode arities:
a root with child count other than one, a pipeline with fewer than two
children, or a command/process substitution with child count other than
one. -/
def containsOffense : Node → Bool
  | .mk i cs =>
    (i.kind == .root && cs.length != 1) ||
    (i.kind == .pipeline && cs.length < 2) ||
    ((i.kind == .commandsubstitution || i.kind == .processsubstitution) &&
      cs.length != 1) ||
    containsOffenseList cs

/-- Whether some tree in a list contains an arity offense. -/
def containsOffenseList : List Node → Bool
  | [] => false
  | c :: cs => containsOffense c || containsOffenseList cs
end

/- ### The parenthesized-sequence parser. -/

/-- The root node attributes created by the paren parser. -/
def parenRootInfo : NodeInfo := { kind := .root, value := "root" }

/-- The non-terminal attributes created for an open paren, with the parent
back-reference set to the stack top. -/
def parenNtInfo (par : NodeInfo) : NodeInfo :=
  { kind := .nt, value := "<n>", parent := some (par.kind, par.value) }

/-- The terminal leaf created for an ordinary word, attached under the stack
top. -/
def parenTNode (w : String) (par : NodeInfo) : Node :=
  .mk { kind := .t, value := w, parent := some (par.kind, par.value) } []

/-- A stack frame of the paren parser: a node under construction — its
attributes and the children attached so far, in order. -/
structure PFrame where
  info : NodeInfo
  childAcc : List Node

/-- Finalize a frame into a node. -/
def PFrame.close (f : PFrame) : Node := .mk f.info f.childAcc

/-- Collapse the remaining stack at end of input: in the source every pushed
node is attached to its parent at push time, so frames left unclosed are
closed in place, innermost first. -/
def collapseStack : PFrame → List PFrame → Node
  | top, [] => top.close
  | top, f :: rest => collapseStack ⟨f.info, f.childAcc ++ [top.close]⟩ rest

/-- The word loop of the paren parser once the stack is non-empty (its top is
held separately): an open paren pushes a fresh non-terminal under the top, a
close paren pops — stopping, as the source's loop break does, when the stack
empties — and any other word attaches a terminal leaf to the top. -/
def parenGo : List String → PFrame → List PFrame → Node
  | [], top, rest => collapseStack top rest
  | w :: ws, top, rest =>
    if w == "(" then
      parenGo ws ⟨parenNtInfo top.info, []⟩ (top :: rest)
    else if w == ")" then
      match rest with
      | r :: rs => parenGo ws ⟨r.info, r.childAcc ++ [top.close]⟩ rs
      | [] => top.close
    else
      parenGo ws ⟨top.info, top.childAcc ++ [parenTNode w top.info]⟩ rest

/-- The loop entry.  The stack is empty only before the first word, so a
first word other than a paren hits `stack[-1]` on the empty stack — the
modelled `IndexError` (`none`); a first close paren leaves the stack empty
and the loop break returns the bare root. -/
def parenRun : List String → Option Node
  | [] => some (.mk parenRootInfo [])
  | w :: ws =>
    if w == "(" then some (parenGo ws ⟨parenRootInfo, []⟩ [])
    else if w == ")" then some (.mk parenRootInfo [])
    else none

/-- The sort key of `order_child_fun`: a terminal's own value; otherwise the
first child's value when children exist, else the node's own value. -/
def orderKey (x : Node) : String :=
  match x with
  | .mk i cs =>
    if i.kind == .t then i.value
    else
      match cs with
      | c :: _ => c.value
      | [] => i.value

mutual
/-- Embeds `order_child_fun`: recursively order every child, then, when
there are at least two children and the first child's value is a logic
keyword, keep the first child and stably sort the remaining children by
their display key. -/
def order_child_fun : Node → Node
  | .mk i cs =>
    let cs2 := orderChildList cs
    if cs2.length > 1 &&
        (match cs2 with
         | c :: _ => c.value == "and" || c.value == "or"
         | [] => false) then
      .mk i (cs2.take 1 ++ sortKeyed orderKey (cs2.drop 1))
    else .mk i cs2

/-- Order every tree of a list. -/
def orderChildList : List Node → List Node
  | [] => []
  | c :: cs => order_child_fun c :: orderChildList cs
end

/-- The synthetic wrapping of the input line: a missing leading open paren or
trailing close paren is repaired before tokenizing. -/
def wrapParens (line : String) : String :=
  let line2 := if !(pyStartsWith line "(") then "( " ++ line else line
  if !(pyEndsWith line2 ")") then line2 ++ " )" else line2

/-- Embeds `paren_parser`: wrap the line, tokenize on whitespace, run the
stack loop, then canonicalize child order; `none` models the `IndexError`
described at `parenRun`. -/
def parenParse (line : String) : Option Node :=
  match parenRun (pyWords (wrapParens line)) with
  | none => none
  | some r => some (order_child_fun r)

/- ### Concrete trees used to instantiate the results. -/

/-- A strict `find -name *.txt` tree: root over the utility `find`, whose
option child `-name` (with back-references set) carries one open-vocabulary
`Regex` argument. -/
def findNameTree : Node :=
  .mk { kind := .root, value := "root" }
    [.mk { kind := .utility, value := "find" }
      [.mk { kind := .option, value := "-name",
             parent := some (.utility, "find"), utilityValue := some "find" }
        [.mk { kind := .argument, value := "*.txt", argType := "Regex",
               openVocab := true, parent := some (.option, "-name"),
               utilityValue := some "find" } []]]]

/-- An option node with value `-x` (back-references set) over one literal
argument. -/
def optX (arg : String) : Node :=
  .mk { kind := .option, value := "-x",
        parent := some (.utility, "u"), utilityValue := some "u" }
    [.mk { kind := .argument, value := arg, argType := "Other", openVocab := true,
           parent := some (.option, "-x"), utilityValue := some "u" } []]

/-- The attributes of a bare utility node named `u`. -/
def uInfo : NodeInfo := { kind := .utility, value := "u" }

/-- A root node with no children: the smallest strict-arity offender. -/
def emptyRootTree : Node := .mk { kind := .root, value := "root" } []

/-- An option node whose value contains two `::` markers, over no children. -/
def doubleColonOpt : Node :=
  .mk { kind := .option, value := "-exec::a::b",
        parent := some (.utility, "find"), utilityValue := some "find" } []

/-- The attributes of a well-formed `-exec`-style option with value
`-exec::;`. -/
def execOptInfo : NodeInfo :=
  { kind := .option, value := "-exec::;",
    parent := some (.utility, "find"), utilityValue := some "find" }

/-- The single argument child of the `-exec::;` option. -/
def execOptChildren : List Node :=
  [.mk { kind := .argument, value := "rm", argType := "Program",
         openVocab := true, parent := some (.option, "-exec::;"),
         utilityValue := some "find" } []]

/-- The attributes of an open-vocabulary quantity argument with value `+3`. -/
def plusNumInfo : NodeInfo :=
  { kind := .argument, value := "+3", argType := "Number", openVocab := true,
    parent := some (.option, "-size"), utilityValue := some "find" }

/-- The attributes of a pipeline node. -/
def pipeInfo : NodeInfo := { kind := .pipeline, value := "pipeline" }

/-- A one-utility command `ls` as a pipeline child. -/
def lsTree : Node := .mk { kind := .utility, value := "ls" } []

/-- A strict tree whose `head` utility carries an unfilled (entity-valued)
`Number` argument, the spec's default-filling scenario. -/
def headNumberTree : Node :=
  .mk { kind := .root, value := "root" }
    [.mk { kind := .utility, value := "head" }
      [.mk { kind := .argument, value := "Number", argType := "Number",
             openVocab := true, parent := some (.utility, "head"),
             utilityValue := some "head" } []]]

/-- A tree whose entity-valued `Number` argument sits directly under the
root, so its nearest-enclosing-utility back-reference is null. -/
def orphanNumberTree : Node :=
  .mk { kind := .root, value := "root" }
    [.mk { kind := .argument, value := "Number", argType := "Number",
           openVocab := true, parent := some (.root, "root") } []]

/- ### Helper lemmas. -/

theorem nodeWeight_pos : ∀ t : Node, 1 ≤ nodeWeight t
  | .mk _ cs => by simp [nodeWeight]

theorem nodeWeight_le_of_mem : ∀ (cs : List Node) (c : Node), c ∈ cs →
    nodeWeight c ≤ listWeight cs := by
  intro cs
  induction cs with
  | nil => intro c hc; cases hc
  | cons x xs ih =>
    intro c hc
    rcases List.mem_cons.mp hc with h | h
    · subst h; simp [listWeight]; omega
    · have := ih c h; simp [listWeight]; omega

/-- Structural induction over the node model: to prove a property of every
tree it suffices to prove it for a node assuming it for all children. -/
theorem node_ind (P : Node → Prop)
    (h : ∀ i cs, (∀ c ∈ cs, P c) → P (.mk i cs)) : ∀ t, P t := by
  have key : ∀ n t, nodeWeight t ≤ n → P t := by
    intro n
    induction n with
    | zero => intro t ht; have := nodeWeight_pos t; omega
    | succ n ih =>
      intro t ht
      cases t with
      | mk i cs =>
        apply h
        intro c hc
        apply ih
        have h1 := nodeWeight_le_of_mem cs c hc
        simp [nodeWeight] at ht
        omega
  intro t
  exact key (nodeWeight t) t le_rfl

theorem insertKeyed_perm (k : Node → String) (x : Node) (l : List Node) :
    (insertKeyed k x l).Perm (x :: l) := by
  induction l with
  | nil => simp [insertKeyed]
  | cons y ys ih =>
    simp only [insertKeyed]
    by_cases h : pyStrLe (k x) (k y)
    · simp [h]
    · simp only [h]
      simp only [Bool.false_eq_true, if_false]
      exact ((ih.cons y).trans (List.Perm.swap x y ys))

theorem sortKeyed_perm (k : Node → String) (l : List Node) :
    (sortKeyed k l).Perm l := by
  induction l with
  | nil => simp [sortKeyed]
  | cons x xs ih =>
    exact (insertKeyed_perm k x (sortKeyed k xs)).trans (ih.cons x)

theorem mem_of_mem_sortKeyed {k : Node → String} {c : Node} {l : List Node}
    (h : c ∈ sortKeyed k l) : c ∈ l :=
  (sortKeyed_perm k l).mem_iff.mp h

theorem mem_sortKeyed_of_mem {k : Node → String} {c : Node} {l : List Node}
    (h : c ∈ l) : c ∈ sortKeyed k l :=
  (sortKeyed_perm k l).mem_iff.mpr h

/- ### C7: loose-mode pipeline degradation. -/

/-- C7: under `loose_constraints=true` a pipeline node with exactly one child
linearizes to exactly the same token list as that child alone under the same
policy flags (so the degenerate wrapper adds no `|` token of its own), and a
pipeline node with zero children linearizes to the single-token list
`["|"]`. -/
theorem pipeline_loose_degradation (i : NodeInfo) (c : Node) (F : Flags)
    (hk : i.kind = NodeKind.pipeline) (hlc : F.loose_constraints = true) :
    ast2tokens (.mk i [c]) F = ast2tokens c F ∧
    ast2tokens (.mk i []) F = some ["|"] := by
  constructor
  · simp [ast2tokens, toTokens, hk, hlc]
  · simp [ast2tokens, toTokens, hk, hlc]

/-- Witness for C7: a concrete pipeline node over the single utility `ls`,
and the same pipeline attributes with no children. -/
theorem pipeline_loose_degradation_witness :
    ast2tokens (.mk pipeInfo [lsTree]) { loose_constraints := true } =
      ast2tokens lsTree { loose_constraints := true } ∧
    ast2tokens (.mk pipeInfo []) { loose_constraints := true } = some ["|"] :=
  pipeline_loose_degradation pipeInfo lsTree { loose_constraints := true } rfl rfl

/- ### C6: sign-preserving quantity abstraction. -/

/-- C6: under `arg_type_only=true` (other policy flags at their defaults), an
open-vocabulary leaf argument of a quantity type emits `+` prepended to the
type name when its value starts with `+`, `-` prepended when it starts with
`-`, and the bare type name otherwise. -/
theorem quantity_sign_abstraction (i : NodeInfo)
    (hk : i.kind = NodeKind.argument) (hov : i.openVocab = true)
    (hq : QUANTITIES.contains i.argType = true) :
    ast2tokens (.mk i []) { arg_type_only := true } =
      some [if pyStartsWith i.value "+" then "+" ++ i.argType
            else if pyStartsWith i.value "-" then "-" ++ i.argType
            else i.argType] := by
  simp [ast2tokens, toTokens, hk, hov, hq]
  intro hmem
  exact absurd (by simpa using hq) hmem

/-- Witness for C6: a `+3` argument of type `Number` abstracts to
`+Number`. -/
theorem quantity_sign_abstraction_witness :
    ast2tokens (.mk plusNumInfo []) { arg_type_only := true } = some ["+Number"] := by
  have h := quantity_sign_abstraction plusNumInfo rfl rfl (by decide)
  rw [h]
  decide

/- ### C1: parent qualification of option tokens. -/

/-- C1 (code bug): `with_parent=true` does not render an option token as
`utility@@flag`.  The source assigns its local alias `wp = with_parent` and
immediately reassigns `wp = with_prefix`, so the qualification is gated on
`with_prefix` instead; on the strict `find -name` tree with
`with_parent=true` and every other flag false the option renders as the bare
`-name`, not `find@@-name`. -/
theorem with_parent_qualification_dropped :
    ast2tokens findNameTree { with_parent := true } =
      some ["find", "-name", "*.txt"] ∧
    ast2tokens findNameTree { with_parent := true } ≠
      some ["find", "find@@-name", "*.txt"] := by
  constructor
  · simp [ast2tokens, toTokens, toTokensList, findNameTree]; decide
  · simp [ast2tokens, toTokens, toTokensList, findNameTree]; decide

/- ### C5: terminator splitting for exec-style options. -/

/-- C5 (amended): for an option node with a parent, under the default prefix
flag, whose value contains exactly one `::` marker (so `split('::')` yields
exactly two parts) and starts with `-exec` or `-ok`, `ast2tokens` emits the
part before the marker as the flag token, then the children's tokens, then
the part after the marker as a trailing terminator token with `;` escaped to
`\x5c;`; an option whose value does not match the marker-and-prefix shape
emits its value as a single unsplit flag token before its children's
tokens. -/
theorem exec_terminator_splitting (i : NodeInfo) (cs : List Node) (F : Flags)
    (hk : i.kind = NodeKind.option) (hp : i.parent.isSome = true)
    (hwp : F.with_pre = false) :
    (∀ v op, pySplitDC i.value = [v, op] →
      pyContains i.value "::" = true →
      (pyStartsWith i.value "-exec" = true ∨ pyStartsWith i.value "-ok" = true) →
      ast2tokens (.mk i cs) F =
        (toTokensList F cs).map
          (fun ts => v :: ts ++ [if op == ";" then "\\;" else op])) ∧
    (¬(pyContains i.value "::" = true ∧
        (pyStartsWith i.value "-exec" = true ∨ pyStartsWith i.value "-ok" = true)) →
      ast2tokens (.mk i cs) F =
        (toTokensList F cs).map (fun ts => i.value :: ts)) := by
  constructor
  · intro v op hsplit hcont hstart
    have hss : (pyStartsWith i.value "-exec" || pyStartsWith i.value "-ok") = true := by
      rcases hstart with h | h <;> simp [h]
    cases cs with
    | nil =>
      cases hts : toTokensList F [] <;>
        simp [ast2tokens, toTokens, hk, hp, hwp, hcont, hss, hsplit, hts]
    | cons c rest =>
      cases hts : toTokensList F (c :: rest) <;>
        simp [ast2tokens, toTokens, hk, hp, hwp, hcont, hss, hsplit, hts]
  · intro hns
    have hcond : (pyContains i.value "::" &&
        (pyStartsWith i.value "-exec" || pyStartsWith i.value "-ok")) = false := by
      cases hc : pyContains i.value "::" <;>
        cases h1 : pyStartsWith i.value "-exec" <;>
          cases h2 : pyStartsWith i.value "-ok" <;> simp_all
    cases cs with
    | nil =>
      cases hts : toTokensList F [] <;>
        simp [ast2tokens, toTokens, hk, hp, hwp, hcond, hts]
    | cons c rest =>
      cases hts : toTokensList F (c :: rest) <;>
        simp [ast2tokens, toTokens, hk, hp, hwp, hcond, hts]

/-- Witness for C5: the `-exec::;` option over one argument child emits
`-exec`, the child token, then the escaped terminator. -/
theorem exec_terminator_splitting_witness :
    ast2tokens (.mk execOptInfo execOptChildren) {} = some ["-exec", "rm", "\\;"] := by
  have h := (exec_terminator_splitting execOptInfo execOptChildren {}
    (by decide) (by decide) rfl).1 "-exec" ";" (by decide) (by decide)
    (Or.inl (by decide))
  rw [h]
  simp [toTokensList, toTokens, execOptChildren]

/-- C5 counterexample: an option value with two `::` markers satisfies the
claim's shape condition (contains `::`, starts with `-exec`) yet the
two-variable unpacking of `split('::')` raises `ValueError`, so no token
list is produced at all. -/
theorem double_marker_split_crash : ast2tokens doubleColonOpt {} = none := by
  simp [ast2tokens, toTokens, doubleColonOpt]
  decide

/- ### C10: token and sentinel accounting of the dfs linearizer. -/

theorem numNodesList_eq_sum (cs : List Node) :
    numNodesList cs = (cs.map numNodes).sum := by
  induction cs with
  | nil => simp [numNodesList]
  | cons c cs ih => simp [numNodesList, ih]

theorem numNodesList_sortKeyed (k : Node → String) (cs : List Node) :
    numNodesList (sortKeyed k cs) = numNodesList cs := by
  rw [numNodesList_eq_sum, numNodesList_eq_sum]
  exact ((sortKeyed_perm k cs).map numNodes).sum_eq

theorem ast2listFold_length (ifo ato kca wpar wpre : Bool) :
    ∀ cs : List Node,
      (∀ c ∈ cs, ∀ lst : List String,
        (ast2list c "dfs" lst ifo ato kca wpar wpre).length =
          lst.length + 2 * numNodes c) →
      ∀ lst : List String,
        (ast2listFold cs "dfs" lst ifo ato kca wpar wpre).length =
          lst.length + 2 * numNodesList cs := by
  intro cs
  induction cs with
  | nil => intro _ lst; simp [ast2listFold, numNodesList]
  | cons c rest ih =>
    intro h lst
    simp only [ast2listFold]
    rw [ih (fun d hd => h d (List.mem_cons_of_mem c hd))]
    rw [h c (List.mem_cons_self c rest)]
    simp [numNodesList]
    omega

/-- C10: in dfs order `ast2list` appends exactly one display token and
exactly one structural sentinel per node — the has-children sentinel after
the subtree of a node with at least one child and the no-children sentinel
after a leaf — so for every policy-flag combination the returned list's
length is the supplied list's length plus twice the node count. -/
theorem ast2list_token_sentinel_count (n : Node) (lst : List String)
    (ifo ato kca wpar wpre : Bool) :
    (ast2list n "dfs" lst ifo ato kca wpar wpre).length =
      lst.length + 2 * numNodes n := by
  have main : ∀ t : Node, ∀ l : List String,
      (ast2list t "dfs" l ifo ato kca wpar wpre).length =
        l.length + 2 * numNodes t := by
    apply node_ind (P := fun t => ∀ l : List String,
      (ast2list t "dfs" l ifo ato kca wpar wpre).length = l.length + 2 * numNodes t)
    intro i cs IH l
    simp only [ast2list, beq_self_eq_true, eq_self_iff_true, if_true]
    by_cases hcs : cs.length > 0
    · rw [if_pos hcs]
      have hmem : ∀ c ∈ (if (i.kind == NodeKind.utility && ifo) = true then
          sortKeyed Node.value cs else cs), ∀ lst2 : List String,
          (ast2list c "dfs" lst2 ifo ato kca wpar wpre).length =
            lst2.length + 2 * numNodes c := by
        intro c hc
        apply IH
        by_cases hb : (i.kind == NodeKind.utility && ifo) = true
        · rw [if_pos hb] at hc; exact mem_of_mem_sortKeyed hc
        · rw [if_neg hb] at hc; exact hc
      rw [List.length_append]
      rw [ast2listFold_length ifo ato kca wpar wpre _ hmem]
      have hcnt : numNodesList (if (i.kind == NodeKind.utility && ifo) = true then
          sortKeyed Node.value cs else cs) = numNodesList cs := by
        by_cases hb : (i.kind == NodeKind.utility && ifo) = true
        · rw [if_pos hb, numNodesList_sortKeyed]
        · rw [if_neg hb]
      rw [hcnt]
      simp [numNodes]
      omega
    · rw [if_neg hcs]
      simp [numNodes]
      have : cs = [] := List.length_eq_zero.mp (by omega)
      subst this
      simp [numNodesList]
  exact main n lst

/- ### C3: strict-mode arity violations abort atomically. -/

theorem toTokensList_none (F : Flags) :
    ∀ (cs : List Node) (c : Node), c ∈ cs → toTokens F c = none →
      toTokensList F cs = none := by
  intro cs
  induction cs with
  | nil => intro c hc; cases hc
  | cons x xs ih =>
    intro c hc hnone
    rcases List.mem_cons.mp hc with h | h
    · subst h; simp [toTokensList, hnone]
    · have hxs := ih c h hnone
      cases hx : toTokens F x <;> simp [toTokensList, hx, hxs]

theorem toTokensSep_none (F : Flags) (sep : String) :
    ∀ (cs : List Node) (c : Node), c ∈ cs → toTokens F c = none →
      toTokensSep F sep cs = none := by
  intro cs
  induction cs with
  | nil => intro c hc; cases hc
  | cons x xs ih =>
    intro c hc hnone
    rcases List.mem_cons.mp hc with h | h
    · subst h
      cases xs with
      | nil => simp [toTokensSep, hnone]
      | cons y ys => simp [toTokensSep, hnone]
    · cases xs with
      | nil => cases h
      | cons y ys =>
        have hxs := ih c h hnone
        cases hx : toTokens F x <;> simp [toTokensSep, hx, hxs]

theorem containsOffenseList_exists : ∀ cs : List Node,
    containsOffenseList cs = true → ∃ c ∈ cs, containsOffense c = true := by
  intro cs
  induction cs with
  | nil => intro h; simp [containsOffenseList] at h
  | cons x xs ih =>
    intro h
    simp only [containsOffenseList, Bool.or_eq_true] at h
    rcases h with h | h
    · exact ⟨x, List.mem_cons_self x xs, h⟩
    · obtain ⟨c, hc, hcoff⟩ := ih h
      exact ⟨c, List.mem_cons_of_mem x hc, hcoff⟩

/-- C3: with `loose_constraints=false`, `ast2tokens` applied to a tree that
contains a root node with child count other than one, a pipeline node with
fewer than two children, or a command/process-substitution node with child
count other than one, fails its arity assertion and returns no token list at
all (never a partial or silently wrong sequence), for every setting of the
remaining policy flags. -/
theorem strict_arity_abort (t : Node) (F : Flags)
    (hoff : containsOffense t = true) (hlc : F.loose_constraints = false) :
    ast2tokens t F = none := by
  have main : ∀ t : Node, containsOffense t = true → toTokens F t = none := by
    apply node_ind (P := fun t => containsOffense t = true → toTokens F t = none)
    intro i cs IH hoff
    cases hk : i.kind with
    | root =>
      simp [containsOffense, hk] at hoff
      rcases hoff with h | h
      · cases cs with
        | nil => simp [toTokens, hk, hlc]
        | cons c0 rest =>
          have hne : ((c0 :: rest).length == 1) = false := by simpa using h
          simp [toTokens, hk, hlc, hne]
          intro hr
          subst hr
          simp at h
      · obtain ⟨c, hc, hcoff⟩ := containsOffenseList_exists cs h
        by_cases hlen : cs.length = 1
        · cases cs with
          | nil => simp at hlen
          | cons c0 rest =>
            have hr : rest = [] := by simpa using hlen
            subst hr
            have hceq : c = c0 := by simpa using hc
            subst hceq
            have hnone := IH c (by simp) hcoff
            simp [toTokens, hk, hlc, hnone]
        · cases cs with
          | nil => simp [toTokens, hk, hlc]
          | cons c0 rest =>
            have hne : ((c0 :: rest).length == 1) = false := by simpa using hlen
            simp [toTokens, hk, hlc, hne]
            intro hr
            subst hr
            simp at hlen
    | pipeline =>
      simp [containsOffense, hk] at hoff
      rcases hoff with h | h
      · cases cs with
        | nil => simp [toTokens, hk, hlc]
        | cons c0 rest =>
          have hr : rest = [] := by
            cases rest with
            | nil => rfl
            | cons y ys => exfalso; simp [List.length_cons] at h; try omega
          subst hr
          simp [toTokens, hk, hlc]
      · obtain ⟨c, hc, hcoff⟩ := containsOffenseList_exists cs h
        have hnone := IH c hc hcoff
        by_cases hlen : cs.length > 1
        · have hsep := toTokensSep_none F "|" cs c hc hnone
          cases cs with
          | nil => cases hc
          | cons c0 rest =>
            have hgt : decide ((c0 :: rest).length > 1) = true := by simpa using hlen
            simp [toTokens, hk, hlc, hgt, hsep]
        · cases cs with
          | nil => cases hc
          | cons c0 rest =>
            have hr : rest = [] := by
              cases rest with
              | nil => rfl
              | cons y ys => exfalso; simp [List.length_cons] at hlen; try omega
            subst hr
            simp [toTokens, hk, hlc]
    | commandsubstitution =>
      simp [containsOffense, hk] at hoff
      rcases hoff with h | h
      · cases cs with
        | nil => simp [toTokens, hk, hlc]
        | cons c0 rest =>
          have hne : ((c0 :: rest).length == 1) = false := by simpa using h
          simp [toTokens, hk, hlc, hne]
          intro hr
          subst hr
          simp at h
      · obtain ⟨c, hc, hcoff⟩ := containsOffenseList_exists cs h
        by_cases hlen : cs.length = 1
        · cases cs with
          | nil => simp at hlen
          | cons c0 rest =>
            have hr : rest = [] := by simpa using hlen
            subst hr
            have hceq : c = c0 := by simpa using hc
            subst hceq
            have hnone := IH c (by simp) hcoff
            simp [toTokens, hk, hlc, hnone]
        · cases cs with
          | nil => cases hc
          | cons c0 rest =>
            have hne : ((c0 :: rest).length == 1) = false := by simpa using hlen
            simp [toTokens, hk, hlc, hne]
            intro hr
            subst hr
            simp at hlen
    | processsubstitution =>
      simp [containsOffense, hk] at hoff
      rcases hoff with h | h
      · cases cs with
        | nil => simp [toTokens, hk, hlc]
        | cons c0 rest =>
          have hne : ((c0 :: rest).length == 1) = false := by simpa using h
          simp [toTokens, hk, hlc, hne]
          intro hr
          subst hr
          simp at h
      · obtain ⟨c, hc, hcoff⟩ := containsOffenseList_exists cs h
        by_cases hlen : cs.length = 1
        · cases cs with
          | nil => simp at hlen
          | cons c0 rest =>
            have hr : rest = [] := by simpa using hlen
            subst hr
            have hceq : c = c0 := by simpa using hc
            subst hceq
            have hnone := IH c (by simp) hcoff
            simp [toTokens, hk, hlc, hnone]
        · cases cs with
          | nil => cases hc
          | cons c0 rest =>
            have hne : ((c0 :: rest).length == 1) = false := by simpa using hlen
            simp [toTokens, hk, hlc, hne]
            intro hr
            subst hr
            simp at hlen
    | utility =>
      simp [containsOffense, hk] at hoff
      obtain ⟨c, hc, hcoff⟩ := containsOffenseList_exists cs hoff
      have hnone := IH c hc hcoff
      have hlist : toTokensList F
          (if F.ignore_flag_order = true then sortKeyed Node.value cs else cs) = none := by
        by_cases hb : F.ignore_flag_order = true
        · rw [if_pos hb]
          exact toTokensList_none F _ c (mem_sortKeyed_of_mem hc) hnone
        · rw [if_neg hb]
          exact toTokensList_none F cs c hc hnone
      cases cs with
      | nil => cases hc
      | cons c0 rest => simp [toTokens, hk, hlist]
    | option =>
      simp [containsOffense, hk] at hoff
      obtain ⟨c, hc, hcoff⟩ := containsOffenseList_exists cs hoff
      have hnone := IH c hc hcoff
      have hlist := toTokensList_none F cs c hc hnone
      cases cs with
      | nil => cases hc
      | cons c0 rest =>
        by_cases hp : i.parent.isSome
        · simp only [toTokens, hk, hlc, hp, hlist]
          split
          · rfl
          · split
            · rfl
            · split
              · rfl
              · rfl
        · have hp2 : i.parent.isSome = false := by simpa using hp
          simp [toTokens, hk, hlc, hp2]
    | binarylogicop =>
      simp [containsOffense, hk] at hoff
      obtain ⟨c, hc, _⟩ := containsOffenseList_exists cs hoff
      cases cs with
      | nil => cases hc
      | cons c0 rest => simp [toTokens, hk, hlc]
    | unarylogicop =>
      simp [containsOffense, hk] at hoff
      obtain ⟨c, hc, _⟩ := containsOffenseList_exists cs hoff
      cases cs with
      | nil => cases hc
      | cons c0 rest => simp [toTokens, hk, hlc]
    | bracket =>
      simp [containsOffense, hk] at hoff
      obtain ⟨c, hc, hcoff⟩ := containsOffenseList_exists cs hoff
      have hnone := IH c hc hcoff
      have hlist := toTokensList_none F cs c hc hnone
      cases cs with
      | nil => cases hc
      | cons c0 rest => simp [toTokens, hk, hlc, hlist]
    | nt =>
      simp [containsOffense, hk] at hoff
      obtain ⟨c, hc, hcoff⟩ := containsOffenseList_exists cs hoff
      have hnone := IH c hc hcoff
      have hlist := toTokensList_none F cs c hc hnone
      cases cs with
      | nil => cases hc
      | cons c0 rest => simp [toTokens, hk, hlc, hlist]
    | argument =>
      simp [containsOffense, hk] at hoff
      obtain ⟨c, hc, _⟩ := containsOffenseList_exists cs hoff
      cases cs with
      | nil => cases hc
      | cons c0 rest => simp [toTokens, hk, hlc]
    | t =>
      simp [containsOffense, hk] at hoff
      obtain ⟨c, hc, _⟩ := containsOffenseList_exists cs hoff
      cases cs with
      | nil => cases hc
      | cons c0 rest => simp [toTokens, hk, hlc]
  simpa [ast2tokens] using main t hoff

/-- Witness for C3: the childless root node is rejected under strict
constraints. -/
theorem strict_arity_abort_witness :
    containsOffense emptyRootTree = true ∧ ast2tokens emptyRootTree {} = none :=
  ⟨by decide, strict_arity_abort emptyRootTree {} (by decide) rfl⟩

/- ### C9: the frame effect of default-value filling. -/

theorem frameAgreeList_refl_of (cs : List Node)
    (h : ∀ c ∈ cs, frameAgree c c = true) : frameAgreeList cs cs = true := by
  induction cs with
  | nil => simp [frameAgreeList]
  | cons c rest ih =>
    simp only [frameAgreeList, Bool.and_eq_true]
    exact ⟨h c (by simp), ih (fun d hd => h d (List.mem_cons_of_mem c hd))⟩

theorem frameAgree_refl : ∀ t : Node, frameAgree t t = true := by
  apply node_ind (P := fun t => frameAgree t t = true)
  intro i cs IH
  simp [frameAgree, frameAgreeList_refl_of cs IH]

theorem fillArgValue_frame (i i2 : NodeInfo) (h : fillArgValue i = some i2) :
    i2.kind = i.kind ∧ i2.argType = i.argType ∧ i2.openVocab = i.openVocab ∧
    i2.parent = i.parent ∧ i2.utilityValue = i.utilityValue ∧
    i2.simplePre = i.simplePre ∧ i2.rightAssoc = i.rightAssoc ∧
    i2.toIndex = i.toIndex ∧ i2.index = i.index := by
  simp only [fillArgValue] at h
  split at h
  · split at h
    · cases h
    · split at h <;>
        (injection h with h2; subst h2;
         refine ⟨?_, ?_, ?_, ?_, ?_, ?_, ?_, ?_, ?_⟩ <;>
           simp [fillOtherValue, apply_ite])
  · split at h
    · split at h
      · cases h
      · split at h
        · injection h with h2; subst h2
          refine ⟨rfl, rfl, rfl, rfl, rfl, rfl, rfl, rfl, rfl⟩
        · split at h <;>
            (injection h with h2; subst h2;
             refine ⟨rfl, rfl, rfl, rfl, rfl, rfl, rfl, rfl, rfl⟩)
    · split at h
      · split at h
        · cases h
        · split at h <;>
            (injection h with h2; subst h2;
             refine ⟨?_, ?_, ?_, ?_, ?_, ?_, ?_, ?_, ?_⟩ <;>
               simp [fillOtherValue, apply_ite])
      · injection h with h2; subst h2
        refine ⟨?_, ?_, ?_, ?_, ?_, ?_, ?_, ?_, ?_⟩ <;>
          simp [fillOtherValue, apply_ite]

theorem fillList_frame (cs : List Node)
    (IH : ∀ c ∈ cs, ∀ c', fill_default_value c = some c' → frameAgree c c' = true) :
    ∀ cs2, fillList cs = some cs2 → frameAgreeList cs cs2 = true := by
  induction cs with
  | nil =>
    intro cs2 h
    simp only [fillList] at h
    injection h with h2
    subst h2
    simp [frameAgreeList]
  | cons c rest ih =>
    intro cs2 h
    simp only [fillList] at h
    cases hc : fill_default_value c with
    | none => rw [hc] at h; cases h
    | some c2 =>
      rw [hc] at h
      cases hrest : fillList rest with
      | none => rw [hrest] at h; cases h
      | some rest2 =>
        rw [hrest] at h
        injection h with h2
        subst h2
        simp only [frameAgreeList, Bool.and_eq_true]
        exact ⟨IH c (by simp) c2 hc,
               ih (fun d hd c' => IH d (List.mem_cons_of_mem c hd) c') rest2 hrest⟩

/-- C9: a call of `fill_default_value` that completes modifies only the
`value` field of argument nodes whose value is an entity placeholder: every
node's kind, argument type, open-vocabulary flag, parent and utility
back-references, prefix annotation, associativity, index data and the tree
shape are unchanged, and so is the value of every non-argument node and of
every argument node whose value is not an entity placeholder. -/
theorem fill_frame_effect (t t' : Node) (h : fill_default_value t = some t') :
    frameAgree t t' = true := by
  have main : ∀ t : Node, ∀ t', fill_default_value t = some t' →
      frameAgree t t' = true := by
    apply node_ind (P := fun t => ∀ t', fill_default_value t = some t' →
      frameAgree t t' = true)
    intro i cs IH t' h
    simp only [fill_default_value] at h
    by_cases hk : (i.kind == NodeKind.argument) = true
    · rw [if_pos hk] at h
      by_cases he : (ENTITIES.contains i.value) = true
      · rw [if_pos he] at h
        cases hv : fillArgValue i with
        | none => rw [hv] at h; cases h
        | some i2 =>
          rw [hv] at h
          injection h with h2
          subst h2
          obtain ⟨h1, h2, h3, h4, h5, h6, h7, h8, h9⟩ := fillArgValue_frame i i2 hv
          simp [frameAgree, h1, h2, h3, h4, h5, h6, h7, h8, h9, hk, he,
                frameAgreeList_refl_of cs (fun c _ => frameAgree_refl c)]
          exact Or.inl (by simpa using he)
      · rw [if_neg he] at h
        injection h with h2
        subst h2
        simp [frameAgree, frameAgreeList_refl_of cs (fun c _ => frameAgree_refl c)]
    · rw [if_neg hk] at h
      cases hcs : fillList cs with
      | none => rw [hcs] at h; cases h
      | some cs2 =>
        rw [hcs] at h
        injection h with h2
        subst h2
        simp [frameAgree, fillList_frame cs IH cs2 hcs]
  exact main t t' h

/-- Witness for C9: filling the `head`/`Number` tree only turns the
argument's placeholder value into `10`. -/
theorem fill_frame_effect_witness :
    frameAgree headNumberTree
      (.mk { kind := .root, value := "root" }
        [.mk { kind := .utility, value := "head" }
          [.mk { kind := .argument, value := "10", argType := "Number",
                 openVocab := true, parent := some (.utility, "head"),
                 utilityValue := some "head" } []]]) = true :=
  fill_frame_effect headNumberTree _ (by rfl)

/- ### C8: totality and idempotence of default-value filling. -/

theorem bracket_ne (t : String) (c : Char) (rest : List Char)
    (ht : t.data = c :: rest) (hne : c ≠ '[') (s : String) :
    "[" ++ s ++ "]" ≠ t := by
  intro heq
  have hd := congrArg String.data heq
  rw [String.data_append, String.data_append, ht] at hd
  have hd2 : '[' :: (s.data ++ "]".data) = c :: rest := by simpa using hd
  injection hd2 with hchar _
  exact hne hchar.symm

theorem entities_not_bracket (s : String) :
    ENTITIES.contains ("[" ++ s ++ "]") = false := by
  have key : ∀ l : List String, (∀ t ∈ l, "[" ++ s ++ "]" ≠ t) →
      l.contains ("[" ++ s ++ "]") = false := by
    intro l
    induction l with
    | nil => intro _; rfl
    | cons a as ih =>
      intro h
      have ha := h a (by simp)
      have hmem : "[" ++ s ++ "]" ∉ as :=
        fun hm => h _ (List.mem_cons_of_mem a hm) rfl
      simp [List.contains_cons, ha, hmem]
  apply key
  intro t ht
  fin_cases ht <;> exact bracket_ne _ _ _ rfl (by decide) s

theorem fillArgValue_stable (i : NodeInfo)
    (hpar : (i.argType = "Path" ∨ i.argType = "Regex") → i.parent.isSome = true)
    (huti : i.argType = "Number" → i.utilityValue.isSome = true) :
    ∃ i2, fillArgValue i = some i2 ∧
      (ENTITIES.contains i2.value = false ∨ fillArgValue i2 = some i2) := by
  by_cases hP : (i.argType == "Path") = true
  · have hps : i.parent.isSome = true := hpar (Or.inl (by simpa using hP))
    obtain ⟨⟨pk, pv⟩, hp⟩ := Option.isSome_iff_exists.mp hps
    by_cases hf : (pk == NodeKind.utility && pv == "find") = true
    · refine ⟨{ i with value := "." }, ?_,
        Or.inl (by show ENTITIES.contains "." = false; decide)⟩
      simp [fillArgValue, hP, hp, hf]
    · refine ⟨fillOtherValue i, ?_, ?_⟩
      · simp [fillArgValue, hP, hp, hf]
      · by_cases hov : i.openVocab = true
        · refine Or.inl ?_
          have hfo : fillOtherValue i =
              { i with value := "[" ++ pyLower i.argType ++ "]" } := by
            simp [fillOtherValue, hov]
          rw [hfo]
          exact entities_not_bracket _
        · right
          have hfo : fillOtherValue i = i := by simp [fillOtherValue, hov]
          rw [hfo]
          simp [fillArgValue, hP, hp, hf, hfo]
  · by_cases hR : (i.argType == "Regex") = true
    · have hps : i.parent.isSome = true := hpar (Or.inr (by simpa using hR))
      obtain ⟨⟨pk, pv⟩, hp⟩ := Option.isSome_iff_exists.mp hps
      by_cases hg : (pk == NodeKind.utility && pv == "grep") = true
      · refine ⟨{ i with value := grepDefaultRegex }, ?_,
          Or.inl (by show ENTITIES.contains grepDefaultRegex = false; decide)⟩
        simp [fillArgValue, hP, hR, hp, hg]
      · by_cases hn : (pk == NodeKind.option && pv == "-name" && i.value == "Regex") = true
        · refine ⟨{ i with value := "\"*\"" }, ?_,
            Or.inl (by show ENTITIES.contains "\"*\"" = false; decide)⟩
          simp [fillArgValue, hP, hR, hp, hg, hn]
        · refine ⟨i, ?_, Or.inr ?_⟩ <;> simp [fillArgValue, hP, hR, hp, hg, hn]
    · by_cases hN : (i.argType == "Number") = true
      · have hus : i.utilityValue.isSome = true := huti (by simpa using hN)
        obtain ⟨uv, hu⟩ := Option.isSome_iff_exists.mp hus
        by_cases hh : (uv == "head" || uv == "tail") = true
        · refine ⟨{ i with value := "10" }, ?_,
            Or.inl (by show ENTITIES.contains "10" = false; decide)⟩
          simp [fillArgValue, hP, hR, hN, hu, hh]
        · refine ⟨fillOtherValue i, ?_, ?_⟩
          · simp [fillArgValue, hP, hR, hN, hu, hh]
          · by_cases hov : i.openVocab = true
            · refine Or.inl ?_
              have hfo : fillOtherValue i =
                  { i with value := "[" ++ pyLower i.argType ++ "]" } := by
                simp [fillOtherValue, hov]
              rw [hfo]
              exact entities_not_bracket _
            · right
              have hfo : fillOtherValue i = i := by simp [fillOtherValue, hov]
              rw [hfo]
              simp [fillArgValue, hP, hR, hN, hu, hh, hfo]
      · refine ⟨fillOtherValue i, ?_, ?_⟩
        · simp [fillArgValue, hP, hR, hN]
        · by_cases hov : i.openVocab = true
          · refine Or.inl ?_
            have hfo : fillOtherValue i =
                { i with value := "[" ++ pyLower i.argType ++ "]" } := by
              simp [fillOtherValue, hov]
            rw [hfo]
            exact entities_not_bracket _
          · right
            have hfo : fillOtherValue i = i := by simp [fillOtherValue, hov]
            rw [hfo]
            simp [fillArgValue, hP, hR, hN, hfo]

theorem fillList_stable (cs : List Node)
    (IH : ∀ c ∈ cs, backrefOK c = true →
      ∃ c', fill_default_value c = some c' ∧ fill_default_value c' = some c')
    (h : backrefOKList cs = true) :
    ∃ cs2, fillList cs = some cs2 ∧ fillList cs2 = some cs2 := by
  induction cs with
  | nil => exact ⟨[], rfl, rfl⟩
  | cons c rest ih =>
    simp only [backrefOKList, Bool.and_eq_true] at h
    obtain ⟨c', hc1, hc2⟩ := IH c (by simp) h.1
    obtain ⟨rest2, hr1, hr2⟩ :=
      ih (fun d hd => IH d (List.mem_cons_of_mem c hd)) h.2
    exact ⟨c' :: rest2, by simp [fillList, hc1, hr1], by simp [fillList, hc2, hr2]⟩

/-- C8 (amended): on every tree whose entity-valued argument nodes carry the
back-references the pass dereferences — a parent for `Path`/`Regex` types, an
enclosing utility for `Number` — `fill_default_value` terminates without
raising and is idempotent: a second application returns the once-filled tree
unchanged.  (On trees violating that condition the pass can raise, as the
counterexample shows, so the claim's unconditional totality fails.) -/
theorem fill_total_idempotent (t : Node) (h : backrefOK t = true) :
    ∃ t', fill_default_value t = some t' ∧ fill_default_value t' = some t' := by
  have main : ∀ t : Node, backrefOK t = true →
      ∃ t', fill_default_value t = some t' ∧ fill_default_value t' = some t' := by
    apply node_ind (P := fun t => backrefOK t = true →
      ∃ t', fill_default_value t = some t' ∧ fill_default_value t' = some t')
    intro i cs IH h
    simp only [backrefOK, Bool.and_eq_true] at h
    obtain ⟨hself, hlist⟩ := h
    by_cases hk : (i.kind == NodeKind.argument) = true
    · by_cases he : ENTITIES.contains i.value = true
      · have hcond : (i.kind == NodeKind.argument) = true ∧
            ENTITIES.contains i.value = true := ⟨hk, he⟩
        rw [if_pos hcond] at hself
        simp only [Bool.and_eq_true] at hself
        have hpar : (i.argType = "Path" ∨ i.argType = "Regex") → i.parent.isSome = true := by
          intro hor
          have hb : (i.argType == "Path" || i.argType == "Regex") = true := by
            rcases hor with h | h <;> simp [h]
          have h1 := hself.1
          rw [if_pos hb] at h1
          exact h1
        have huti : i.argType = "Number" → i.utilityValue.isSome = true := by
          intro hn
          have hb : (i.argType == "Number") = true := by simp [hn]
          have h2 := hself.2
          rw [if_pos hb] at h2
          exact h2
        obtain ⟨i2, hv, hstab⟩ := fillArgValue_stable i hpar huti
        obtain ⟨hk2, _⟩ := fillArgValue_frame i i2 hv
        have hk2' : (i2.kind == NodeKind.argument) = true := by
          rw [hk2]; exact hk
        refine ⟨.mk i2 cs, ?_, ?_⟩
        · simp [fill_default_value, hk, he, hv]
          intro hmem
          exact absurd (by simpa using he) hmem
        · by_cases he2 : ENTITIES.contains i2.value = true
          · rcases hstab with hfalse | hidem
            · rw [he2] at hfalse; cases hfalse
            · simp [fill_default_value, hk2', he2, hidem]
          · have he2' : ENTITIES.contains i2.value = false := by simpa using he2
            simp [fill_default_value, hk2', he2']
            intro hmem
            exact absurd hmem (by simpa using he2')
      · have he' : ENTITIES.contains i.value = false := by simpa using he
        refine ⟨.mk i cs, ?_, ?_⟩ <;>
          · simp [fill_default_value, hk, he']
            intro hmem
            exact absurd hmem (by simpa using he')
    · obtain ⟨cs2, h1, h2⟩ := fillList_stable cs IH hlist
      refine ⟨.mk i cs2, ?_, ?_⟩
      · simp [fill_default_value, hk, h1]
      · simp [fill_default_value, hk, h2]
  exact main t h

/-- Witness for C8: the `head`/`Number` tree satisfies the back-reference
condition, fills, and refills to itself. -/
theorem fill_total_idempotent_witness :
    backrefOK headNumberTree = true ∧
    ∃ t', fill_default_value headNumberTree = some t' ∧
      fill_default_value t' = some t' :=
  ⟨by decide, fill_total_idempotent headNumberTree (by decide)⟩

/-- C8 counterexample: on the tree whose entity-valued `Number` argument
sits directly under the root (null `utility` back-reference),
`fill_default_value` dereferences the null reference and raises instead of
terminating, refuting the claim's unconditional totality. -/
theorem fill_crashes_on_null_utility :
    (fill_default_value orphanNumberTree).isNone = true := by decide

/- ### C4: totality envelope of the paren parser. -/

theorem getLastD_info_congr (rs : List PFrame) (a b : PFrame) (h : a.info = b.info) :
    (rs.getLastD a).info = (rs.getLastD b).info := by
  cases rs with
  | nil => simpa [List.getLastD]
  | cons r rr => rw [List.getLastD_cons, List.getLastD_cons]

theorem collapseStack_kind : ∀ (rest : List PFrame) (top : PFrame),
    (collapseStack top rest).kind = (rest.getLastD top).info.kind := by
  intro rest
  induction rest with
  | nil =>
    intro top
    simp [collapseStack, PFrame.close, Node.kind, Node.info, List.getLastD]
  | cons f rs ih =>
    intro top
    rw [show collapseStack top (f :: rs) =
        collapseStack ⟨f.info, f.childAcc ++ [top.close]⟩ rs from rfl]
    rw [ih]
    rw [List.getLastD_cons]
    rw [getLastD_info_congr rs ⟨f.info, f.childAcc ++ [top.close]⟩ f rfl]

theorem parenGo_kind : ∀ (ws : List String) (top : PFrame) (rest : List PFrame),
    (parenGo ws top rest).kind = (rest.getLastD top).info.kind := by
  intro ws
  induction ws with
  | nil => intro top rest; exact collapseStack_kind rest top
  | cons w ws ih =>
    intro top rest
    simp only [parenGo]
    by_cases h1 : (w == "(") = true
    · rw [if_pos h1, ih]
      rw [List.getLastD_cons]
    · rw [if_neg h1]
      by_cases h2 : (w == ")") = true
      · rw [if_pos h2]
        cases rest with
        | nil => simp [PFrame.close, Node.kind, Node.info, List.getLastD]
        | cons r rs =>
          rw [ih]
          rw [List.getLastD_cons]
          rw [getLastD_info_congr rs ⟨r.info, r.childAcc ++ [top.close]⟩ r rfl]
      · rw [if_neg h2, ih]
        exact congrArg NodeInfo.kind
          (getLastD_info_congr rest ⟨top.info, top.childAcc ++ [parenTNode w top.info]⟩ top rfl)

theorem order_child_fun_kind (t : Node) : (order_child_fun t).kind = t.kind := by
  cases t with
  | mk i cs =>
    simp only [order_child_fun]
    split <;> rfl

/-- C4 (amended): `paren_parser` returns a tree rooted at a root-kind node
without raising whenever the synthetically wrapped line's first whitespace
token is exactly `(` or `)` or absent — in particular whenever the input does
not begin with the character `(`, since the wrapping then prepends a
stand-alone `(` token.  (An input beginning with `(` whose first token is
not exactly `(` or `)`, such as `(foo)`, instead raises `IndexError` on the
empty stack — see the counterexample — so the claim's universal totality
fails as stated.) -/
theorem paren_parse_root (line : String)
    (h : ∀ w, (pyWords (wrapParens line)).head? = some w → w = "(" ∨ w = ")") :
    ∃ r, parenParse line = some r ∧ r.kind = NodeKind.root := by
  cases hws : pyWords (wrapParens line) with
  | nil =>
    refine ⟨order_child_fun (.mk parenRootInfo []), ?_, ?_⟩
    · simp [parenParse, hws, parenRun]
    · rw [order_child_fun_kind]; rfl
  | cons w ws =>
    rcases h w (by simp [hws]) with hw | hw
    · subst hw
      refine ⟨order_child_fun (parenGo ws ⟨parenRootInfo, []⟩ []), ?_, ?_⟩
      · simp [parenParse, hws, parenRun]
      · rw [order_child_fun_kind, parenGo_kind]; rfl
    · subst hw
      refine ⟨order_child_fun (.mk parenRootInfo []), ?_, ?_⟩
      · simp [parenParse, hws, parenRun]
      · rw [order_child_fun_kind]; rfl

/-- Witness for C4: an input with no parentheses at all is wrapped and
parses to a root-kind tree. -/
theorem paren_parse_root_witness :
    ∃ r, parenParse "foo and bar" = some r ∧ r.kind = NodeKind.root := by
  apply paren_parse_root
  intro w hw
  have hfirst : (pyWords (wrapParens "foo and bar")).head? = some "(" := by decide
  rw [hfirst] at hw
  exact Or.inl (Option.some.inj hw).symm

/-- C4 counterexample: on `"(foo)"` the line starts with `(` so no wrapping
happens, the first whitespace token `(foo)` is neither `(` nor `)`, and the
word loop indexes the empty stack: `paren_parser` raises `IndexError` and
returns nothing, refuting the claim's universal no-raise guarantee. -/
theorem paren_parse_crash : (parenParse "(foo)").isNone = true := by decide

/- ### C2: flag-order invariance of the linearizer. -/

theorem char_eq_of_toNat_eq (a b : Char) (h : a.toNat = b.toNat) : a = b :=
  Char.eq_of_val_eq (UInt32.ext h)

theorem pyLeChars_total : ∀ a b : List Char,
    pyLeChars a b = true ∨ pyLeChars b a = true := by
  intro a
  induction a with
  | nil => intro b; exact Or.inl rfl
  | cons x xs ih =>
    intro b
    cases b with
    | nil => exact Or.inr rfl
    | cons y ys =>
      by_cases h1 : x.toNat < y.toNat
      · exact Or.inl (by simp [pyLeChars, h1])
      · by_cases h2 : y.toNat < x.toNat
        · exact Or.inr (by simp [pyLeChars, h2])
        · rcases ih ys with h | h
          · exact Or.inl (by simp [pyLeChars, h1, h2, h])
          · exact Or.inr (by simp [pyLeChars, h1, h2, h])

theorem pyLeChars_trans : ∀ a b c : List Char,
    pyLeChars a b = true → pyLeChars b c = true → pyLeChars a c = true := by
  intro a
  induction a with
  | nil => intro b c _ _; rfl
  | cons x xs ih =>
    intro b c hab hbc
    cases b with
    | nil => simp [pyLeChars] at hab
    | cons y ys =>
      cases c with
      | nil => simp [pyLeChars] at hbc
      | cons z zs =>
        by_cases h1 : x.toNat < y.toNat
        · by_cases h2 : y.toNat < z.toNat
          · have h3 : x.toNat < z.toNat := by omega
            simp [pyLeChars, h3]
          · by_cases h4 : z.toNat < y.toNat
            · simp [pyLeChars, h2, h4] at hbc
            · have h3 : x.toNat < z.toNat := by omega
              simp [pyLeChars, h3]
        · by_cases h5 : y.toNat < x.toNat
          · simp [pyLeChars, h1, h5] at hab
          · by_cases h2 : y.toNat < z.toNat
            · have h3 : x.toNat < z.toNat := by omega
              simp [pyLeChars, h3]
            · by_cases h4 : z.toNat < y.toNat
              · simp [pyLeChars, h2, h4] at hbc
              · have hxs : pyLeChars xs ys = true := by
                  simpa [pyLeChars, h1, h5] using hab
                have hys : pyLeChars ys zs = true := by
                  simpa [pyLeChars, h2, h4] using hbc
                have h3 : ¬ x.toNat < z.toNat := by omega
                have h6 : ¬ z.toNat < x.toNat := by omega
                simp [pyLeChars, h3, h6]
                exact ih ys zs hxs hys

theorem pyLeChars_antisymm : ∀ a b : List Char,
    pyLeChars a b = true → pyLeChars b a = true → a = b := by
  intro a
  induction a with
  | nil =>
    intro b hab hba
    cases b with
    | nil => rfl
    | cons y ys => simp [pyLeChars] at hba
  | cons x xs ih =>
    intro b hab hba
    cases b with
    | nil => simp [pyLeChars] at hab
    | cons y ys =>
      by_cases h1 : x.toNat < y.toNat
      · have h2 : ¬ y.toNat < x.toNat := by omega
        simp [pyLeChars, h1, h2] at hba
      · by_cases h2 : y.toNat < x.toNat
        · simp [pyLeChars, h1, h2] at hab
        · have hxy : x = y := char_eq_of_toNat_eq x y (by omega)
          subst hxy
          have hxs : pyLeChars xs ys = true := by simpa [pyLeChars, h1, h2] using hab
          have hys : pyLeChars ys xs = true := by simpa [pyLeChars, h1, h2] using hba
          rw [ih ys hxs hys]

theorem pyStrLe_total (a b : String) : pyStrLe a b = true ∨ pyStrLe b a = true :=
  pyLeChars_total a.data b.data

theorem pyStrLe_trans (a b c : String) (hab : pyStrLe a b = true)
    (hbc : pyStrLe b c = true) : pyStrLe a c = true :=
  pyLeChars_trans a.data b.data c.data hab hbc

theorem pyStrLe_antisymm (a b : String) (hab : pyStrLe a b = true)
    (hba : pyStrLe b a = true) : a = b :=
  String.ext (pyLeChars_antisymm a.data b.data hab hba)

theorem insertKeyed_pairwise (k : Node → String) (x : Node) (l : List Node)
    (hl : l.Pairwise (fun a b => pyStrLe (k a) (k b) = true)) :
    (insertKeyed k x l).Pairwise (fun a b => pyStrLe (k a) (k b) = true) := by
  induction l with
  | nil => simp [insertKeyed]
  | cons y ys ih =>
    simp only [insertKeyed]
    obtain ⟨hy, hys⟩ := List.pairwise_cons.mp hl
    by_cases h : pyStrLe (k x) (k y) = true
    · rw [if_pos h]
      refine List.Pairwise.cons ?_ hl
      intro b hb
      rcases List.mem_cons.mp hb with hb | hb
      · subst hb; exact h
      · exact pyStrLe_trans _ _ _ h (hy b hb)
    · rw [if_neg h]
      have hx : pyStrLe (k y) (k x) = true := by
        rcases pyStrLe_total (k x) (k y) with h1 | h1
        · exact absurd h1 h
        · exact h1
      refine List.Pairwise.cons ?_ (ih hys)
      intro b hb
      have hb2 := (insertKeyed_perm k x ys).mem_iff.mp hb
      rcases List.mem_cons.mp hb2 with hb3 | hb3
      · subst hb3; exact hx
      · exact hy b hb3

theorem sortKeyed_pairwise (k : Node → String) (l : List Node) :
    (sortKeyed k l).Pairwise (fun a b => pyStrLe (k a) (k b) = true) := by
  induction l with
  | nil => simp [sortKeyed]
  | cons x xs ih => exact insertKeyed_pairwise k x (sortKeyed k xs) ih

theorem sortKeyed_eq_of_perm (cs cs' : List Node)
    (hperm : cs'.Perm cs)
    (hdist : cs.Pairwise (fun a b => a.value ≠ b.value)) :
    sortKeyed Node.value cs' = sortKeyed Node.value cs := by
  haveI : IsAntisymm Node
      (fun a b => pyStrLe a.value b.value = true ∧ a.value ≠ b.value) := by
    constructor
    intro a b hab hba
    exact absurd (pyStrLe_antisymm _ _ hab.1 hba.1) hab.2
  have hsymm : ∀ {x y : Node}, x.value ≠ y.value → y.value ≠ x.value :=
    fun h => h.symm
  have hp : (sortKeyed Node.value cs').Perm (sortKeyed Node.value cs) :=
    ((sortKeyed_perm Node.value cs').trans hperm).trans
      (sortKeyed_perm Node.value cs).symm
  have hd1 : (sortKeyed Node.value cs').Pairwise
      (fun a b => a.value ≠ b.value) := by
    refine (List.Perm.pairwise_iff hsymm
      ((sortKeyed_perm Node.value cs').trans hperm)).mpr hdist
  have hd2 : (sortKeyed Node.value cs).Pairwise
      (fun a b => a.value ≠ b.value) := by
    refine (List.Perm.pairwise_iff hsymm (sortKeyed_perm Node.value cs)).mpr hdist
  exact @List.eq_of_perm_of_sorted Node
    (fun a b => pyStrLe a.value b.value = true ∧ a.value ≠ b.value) this _ _ hp
    ((sortKeyed_pairwise Node.value cs').and hd1)
    ((sortKeyed_pairwise Node.value cs).and hd2)

/-- C2 (amended): for a utility node whose children carry pairwise distinct
values, the token list produced by `ast2tokens` with `ignore_flag_order=true`
is the same for any permutation of the children (under any setting of the
other policy flags).  The source sorts with Python's stable sort keyed on
the child value alone, so children sharing a value keep their relative input
order and the unrestricted claim fails — see the counterexample. -/
theorem flag_order_invariance (i : NodeInfo) (F : Flags) (cs cs' : List Node)
    (hk : i.kind = NodeKind.utility)
    (hperm : cs'.Perm cs)
    (hdist : cs.Pairwise (fun a b => a.value ≠ b.value)) :
    ast2tokens (.mk i cs') { F with ignore_flag_order := true } =
      ast2tokens (.mk i cs) { F with ignore_flag_order := true } := by
  have hsort := sortKeyed_eq_of_perm cs cs' hperm hdist
  cases cs' with
  | nil =>
    cases cs with
    | nil => rfl
    | cons c rest => exact absurd hperm.symm (by simp)
  | cons c' rest' =>
    cases cs with
    | nil => exact absurd hperm (by simp)
    | cons c rest =>
      simp [ast2tokens, toTokens, hk, hsort]

/-- Witness for C2: swapping two distinct-valued options of a utility leaves
the `ignore_flag_order=true` token list unchanged. -/
theorem flag_order_invariance_witness :
    ast2tokens
      (.mk uInfo
        [.mk { kind := .option, value := "-b", parent := some (.utility, "u"),
               utilityValue := some "u" } [],
         .mk { kind := .option, value := "-a", parent := some (.utility, "u"),
               utilityValue := some "u" } []]) { ignore_flag_order := true } =
    ast2tokens
      (.mk uInfo
        [.mk { kind := .option, value := "-a", parent := some (.utility, "u"),
               utilityValue := some "u" } [],
         .mk { kind := .option, value := "-b", parent := some (.utility, "u"),
               utilityValue := some "u" } []]) { ignore_flag_order := true } := by
  apply flag_order_invariance uInfo {} _ _ (by decide)
  · exact List.Perm.swap _ _ _
  · apply List.Pairwise.cons
    · intro b hb
      simp at hb
      subst hb
      decide
    · simp

/-- C2 counterexample: two option children share the flag value `-x` but
carry different argument subtrees; the stable sort keeps equal-valued
children in input order, so the two child orders linearize differently even
with `ignore_flag_order=true`, refuting the unrestricted permutation
claim. -/
theorem flag_order_swap_differs :
    ast2tokens (.mk uInfo [optX "a", optX "b"]) { ignore_flag_order := true } ≠
      ast2tokens (.mk uInfo [optX "b", optX "a"]) { ignore_flag_order := true } := by
  simp [ast2tokens, toTokens, toTokensList, uInfo, optX, sortKeyed, insertKeyed,
        pyStrLe, pyLeChars]
  decide
